import Mathlib

/-!
Verification development for the MavericK admixture-model MCMC object
(`src/MCMCobject_admixture.cpp`).  The data model and operations are embedded
shallowly: machine integers become `ℕ`/`ℤ`, doubles become `ℝ`, the RNG is
abstracted into explicit draw parameters, and each C++ member function becomes
a Lean function on an explicit state record.
-/

/-- Fixed configuration of one chain: copied from `globals` in the constructor
(`MCMCobject_admixture::MCMCobject_admixture`).  `data i l p = 0` denotes a
missing observation; allele values are `1 .. J l`. -/
structure Cfg where
  n : ℕ
  loci : ℕ
  ploidy : ℕ → ℕ
  J : ℕ → ℕ
  dat : ℕ → ℕ → ℕ → ℕ
  K : ℕ
  lambda : ℝ
  beta : ℝ

/-- Mutable chain state: the group assignment (1-based deme labels, as in the
C++ `linearGroup`), the four co-maintained count tensors (0-based deme rows,
0-based allele slots, exactly as indexed by `linearGroup[..]-1` and
`data[..]-1` in the source), the admixture concentration `alpha`, and the
per-gene-copy Q matrices.  Gene copies are indexed by their triple
`(individual, locus, ploidy slot)`. -/
structure MCState where
  alpha : ℝ
  linearGroup : ℕ → ℕ → ℕ → ℕ
  alleleCounts : ℕ → ℕ → ℕ → ℤ
  alleleCountsTotals : ℕ → ℕ → ℤ
  admixCounts : ℕ → ℕ → ℤ
  admixCountsTotals : ℕ → ℤ
  Qnew : ℕ → ℕ → ℕ → ℕ → ℝ
  logQnew : ℕ → ℕ → ℕ → ℕ → ℝ
  logQrunning : ℕ → ℕ → ℕ → ℕ → ℝ

/-- The canonical linear enumeration of gene copies: individuals in order,
then loci, then ploidy slots — the scan order of every
`for (ind) for (l) for (p)` loop in the source. -/
def geneList (cfg : Cfg) : List (ℕ × ℕ × ℕ) :=
  (List.range cfg.n).flatMap fun i =>
    (List.range cfg.loci).flatMap fun l =>
      (List.range (cfg.ploidy i)).map fun p => (i, l, p)

/-- A gene-copy triple lies in the ranges of the nested loops. -/
def InRange (cfg : Cfg) (g : ℕ × ℕ × ℕ) : Prop :=
  g.1 < cfg.n ∧ g.2.1 < cfg.loci ∧ g.2.2 < cfg.ploidy g.1

/-- Well-formed data: every observation is at most the allele count of its
locus (with `0` meaning missing). -/
def DataValid (cfg : Cfg) : Prop :=
  ∀ i, i < cfg.n → ∀ l, l < cfg.loci → ∀ p, p < cfg.ploidy i →
    cfg.dat i l p ≤ cfg.J l

/-- A group assignment is valid when every in-range gene copy carries a
1-based label in `1 .. K`. -/
def GroupValid (cfg : Cfg) (grp : ℕ → ℕ → ℕ → ℕ) : Prop :=
  ∀ i, i < cfg.n → ∀ l, l < cfg.loci → ∀ p, p < cfg.ploidy i →
    1 ≤ grp i l p ∧ grp i l p ≤ cfg.K

/-- Add the gene copy `g` to the four count tensors at its current group
label: the four `++` statements guarded by `data[ind][l][p]!=0` in `reset`
and at the end of `group_update`. -/
def addCopy (cfg : Cfg) (s : MCState) (g : ℕ × ℕ × ℕ) : MCState :=
  { s with
    alleleCounts := fun k' l' j' =>
      if k' = s.linearGroup g.1 g.2.1 g.2.2 - 1 ∧ l' = g.2.1 ∧
          j' = cfg.dat g.1 g.2.1 g.2.2 - 1 then
        s.alleleCounts k' l' j' + 1
      else s.alleleCounts k' l' j'
    alleleCountsTotals := fun k' l' =>
      if k' = s.linearGroup g.1 g.2.1 g.2.2 - 1 ∧ l' = g.2.1 then
        s.alleleCountsTotals k' l' + 1
      else s.alleleCountsTotals k' l'
    admixCounts := fun i' k' =>
      if i' = g.1 ∧ k' = s.linearGroup g.1 g.2.1 g.2.2 - 1 then
        s.admixCounts i' k' + 1
      else s.admixCounts i' k'
    admixCountsTotals := fun i' =>
      if i' = g.1 then s.admixCountsTotals i' + 1 else s.admixCountsTotals i' }

/-- Subtract the gene copy `g` from the four count tensors at its current
group label: the four `--` statements at the top of the `group_update` body. -/
def removeCopy (cfg : Cfg) (s : MCState) (g : ℕ × ℕ × ℕ) : MCState :=
  { s with
    alleleCounts := fun k' l' j' =>
      if k' = s.linearGroup g.1 g.2.1 g.2.2 - 1 ∧ l' = g.2.1 ∧
          j' = cfg.dat g.1 g.2.1 g.2.2 - 1 then
        s.alleleCounts k' l' j' - 1
      else s.alleleCounts k' l' j'
    alleleCountsTotals := fun k' l' =>
      if k' = s.linearGroup g.1 g.2.1 g.2.2 - 1 ∧ l' = g.2.1 then
        s.alleleCountsTotals k' l' - 1
      else s.alleleCountsTotals k' l'
    admixCounts := fun i' k' =>
      if i' = g.1 ∧ k' = s.linearGroup g.1 g.2.1 g.2.2 - 1 then
        s.admixCounts i' k' - 1
      else s.admixCounts i' k'
    admixCountsTotals := fun i' =>
      if i' = g.1 then s.admixCountsTotals i' - 1 else s.admixCountsTotals i' }

/-- One step of the populate loop of `reset`: add the copy only when the
observation is not missing. -/
def condAdd (cfg : Cfg) (s : MCState) (g : ℕ × ℕ × ℕ) : MCState :=
  if cfg.dat g.1 g.2.1 g.2.2 ≠ 0 then addCopy cfg s g else s

/-- `MCMCobject_admixture::reset`: install the (externally drawn) initial
group allocation `initGrp`, zero the count tensors and Q matrices, reset
`logQrunning` to the uniform reference `-log K` when requested, and repopulate
the counts by one pass over the gene copies in canonical order. -/
noncomputable def reset (cfg : Cfg) (resetQrunning : Bool) (s : MCState)
    (initGrp : ℕ → ℕ → ℕ → ℕ) : MCState :=
  (geneList cfg).foldl (condAdd cfg)
    { s with
      linearGroup := initGrp
      alleleCounts := fun _ _ _ => 0
      alleleCountsTotals := fun _ _ => 0
      admixCounts := fun _ _ => 0
      admixCountsTotals := fun _ => 0
      Qnew := fun _ _ _ _ => 0
      logQnew := fun _ _ _ _ => 0
      logQrunning :=
        if resetQrunning then fun _ _ _ _ => -Real.log cfg.K
        else s.logQrunning }

/-- The unnormalized categorical weight `probVec[k]` exactly as accumulated in
the inner loop of `group_update`: the allele-frequency factor (or `1.0` for a
missing observation), raised to `beta` when `beta != 1.0`, then multiplied by
the admixture factor. -/
noncomputable def probVecCode (cfg : Cfg) (s : MCState) (i l p : ℕ) (b : ℝ)
    (k : ℕ) : ℝ :=
  (if cfg.dat i l p = 0 then (1 : ℝ)
   else
     (if b ≠ 1 then
        (((s.alleleCounts k l (cfg.dat i l p - 1) : ℝ) + cfg.lambda) /
            ((s.alleleCountsTotals k l : ℝ) + (cfg.J l : ℝ) * cfg.lambda)) ^ b
      else
        ((s.alleleCounts k l (cfg.dat i l p - 1) : ℝ) + cfg.lambda) /
          ((s.alleleCountsTotals k l : ℝ) + (cfg.J l : ℝ) * cfg.lambda))) *
    ((s.admixCounts i k : ℝ) + s.alpha)

/-- The weight formula as the specification words it: `w[k] = admixCounts[i][k] + α`
for a missing observation, and otherwise
`w[k] = (admixCounts[i][k] + α) · p_alleleᵝ` with
`p_allele = (alleleCounts[k][l][a] + λ) / (alleleCountsTotal[k][l] + J[l]·λ)`,
`a = data[i][l][p]` (allele cells being 0-indexed by `a-1` in the store). -/
noncomputable def wSpec (cfg : Cfg) (s : MCState) (i l p : ℕ) (b : ℝ)
    (k : ℕ) : ℝ :=
  if cfg.dat i l p = 0 then (s.admixCounts i k : ℝ) + s.alpha
  else
    ((s.admixCounts i k : ℝ) + s.alpha) *
      ((((s.alleleCounts k l (cfg.dat i l p - 1) : ℝ) + cfg.lambda) /
          ((s.alleleCountsTotals k l : ℝ) + (cfg.J l : ℝ) * cfg.lambda)) ^ b)

/-- Overwrite the stored group label of the single gene copy `g`
(`linearGroup[groupIndex] = ...` in the source). -/
def setGroup (s : MCState) (g : ℕ × ℕ × ℕ) (v : ℕ) : MCState :=
  { s with
    linearGroup := fun i' l' p' =>
      if i' = g.1 ∧ l' = g.2.1 ∧ p' = g.2.2 then v
      else s.linearGroup i' l' p' }

/-- The body of the `group_update` sweep for one gene copy, parametrized by
the weight former `wf` and the categorical draw oracle `draw` (the RNG behind
`sample1`, abstracted as a function of the weight vector): subtract the copy
when not missing, form the weights on the decremented state, resample the
label, and re-add the copy at its new label. -/
noncomputable def geneStepWith (cfg : Cfg)
    (wf : Cfg → MCState → ℕ → ℕ → ℕ → ℝ → ℕ → ℝ)
    (draw : ℕ × ℕ × ℕ → (ℕ → ℝ) → ℕ) (s : MCState) (g : ℕ × ℕ × ℕ) :
    MCState :=
  let s1 := if cfg.dat g.1 g.2.1 g.2.2 ≠ 0 then removeCopy cfg s g else s
  let s2 := setGroup s1 g (draw g (wf cfg s1 g.1 g.2.1 g.2.2 cfg.beta))
  if cfg.dat g.1 g.2.1 g.2.2 ≠ 0 then addCopy cfg s2 g else s2

/-- `MCMCobject_admixture::group_update`: resample the group allocation of
every gene copy in canonical order, with the weights computed exactly as in
the source. -/
noncomputable def group_update (cfg : Cfg) (draw : ℕ × ℕ × ℕ → (ℕ → ℝ) → ℕ)
    (s : MCState) : MCState :=
  (geneList cfg).foldl (geneStepWith cfg probVecCode draw) s

/-- The gene-copy resample as the specification words it (§4.2): identical
sweep, but with the weight vector given by the spec formula `wSpec`. -/
noncomputable def group_update_spec (cfg : Cfg)
    (draw : ℕ × ℕ × ℕ → (ℕ → ℝ) → ℕ) (s : MCState) : MCState :=
  (geneList cfg).foldl (geneStepWith cfg wSpec draw) s

/-- The unnormalized weight of the `produceQmatrix` inner loop: the same
conditional-probability factor as `group_update` but with no `beta` exponent
and computed on the intact counts (the copy is not removed first). -/
noncomputable def qWeight (cfg : Cfg) (s : MCState) (i l p k : ℕ) : ℝ :=
  (if cfg.dat i l p = 0 then (1 : ℝ)
   else
     ((s.alleleCounts k l (cfg.dat i l p - 1) : ℝ) + cfg.lambda) /
       ((s.alleleCountsTotals k l : ℝ) + (cfg.J l : ℝ) * cfg.lambda)) *
    ((s.admixCounts i k : ℝ) + s.alpha)

/-- The accumulated `probVecSum` of `produceQmatrix`. -/
noncomputable def qSum (cfg : Cfg) (s : MCState) (i l p : ℕ) : ℝ :=
  ∑ k ∈ Finset.range cfg.K, qWeight cfg s i l p k

/-- `MCMCobject_admixture::produceQmatrix`: for every gene copy, store the
normalized weight vector in `Qmatrix_gene_new` and its logarithm in
`logQmatrix_gene_new`. -/
noncomputable def produceQmatrix (cfg : Cfg) (s : MCState) : MCState :=
  { s with
    Qnew := fun i l p k =>
      if i < cfg.n ∧ l < cfg.loci ∧ p < cfg.ploidy i ∧ k < cfg.K then
        qWeight cfg s i l p k / qSum cfg s i l p
      else s.Qnew i l p k
    logQnew := fun i l p k =>
      if i < cfg.n ∧ l < cfg.loci ∧ p < cfg.ploidy i ∧ k < cfg.K then
        Real.log (qWeight cfg s i l p k / qSum cfg s i l p)
      else s.logQnew i l p k }

/-- The C library `lgamma`, `log |Γ(x)|`; every argument the sampler feeds it
is positive, where it agrees with `log Γ(x)`. -/
noncomputable def lgamma (x : ℝ) : ℝ := Real.log |Real.Gamma x|

/-- The Dirichlet-multinomial marginal over admixture assignments accumulated
into `logProb_old` / `logProb_new` in `alpha_update`:
`Σᵢ [lgamma(Kα) − lgamma(admixCountsTotals[i]+Kα) + Σ_k (lgamma(admixCounts[i][k]+α) − lgamma(α))]`. -/
noncomputable def logPalpha (cfg : Cfg) (s : MCState) (a : ℝ) : ℝ :=
  ∑ i ∈ Finset.range cfg.n,
    ((lgamma ((cfg.K : ℝ) * a) -
        lgamma ((s.admixCountsTotals i : ℝ) + (cfg.K : ℝ) * a)) +
      ∑ k ∈ Finset.range cfg.K,
        (lgamma ((s.admixCounts i k : ℝ) + a) - lgamma a))

/-- The first reflection loop of `alpha_update`
(`while (alpha_new < -10) alpha_new += 20`): the loop adds `20` exactly
`⌈(-10 - x)/20⌉₊` times, the least number of additions that brings the value
to at least `-10` (zero times when the value is already there). -/
noncomputable def wrapAdd (x : ℝ) : ℝ := x + 20 * (⌈(-10 - x) / 20⌉₊ : ℝ)

/-- The second reflection loop of `alpha_update`
(`while (alpha_new > 20) alpha_new -= 20`): the loop subtracts `20` exactly
`⌈(x - 20)/20⌉₊` times, the least number of subtractions that brings the value
to at most `20`. -/
noncomputable def wrapSub (x : ℝ) : ℝ := x - 20 * (⌈(x - 20) / 20⌉₊ : ℝ)

/-- The fold `if (alpha_new<0) alpha_new = -alpha_new` of `alpha_update`. -/
noncomputable def foldNeg (z : ℝ) : ℝ := if z < 0 then -z else z

/-- The fold `if (alpha_new>10) alpha_new = 20-alpha_new` of `alpha_update`. -/
noncomputable def foldHigh (z : ℝ) : ℝ := if 10 < z then 20 - z else z

/-- The final guard of the reflection: an exact `0` is replaced with
`pow(10.0,-300.0)` to avoid NaNs. -/
noncomputable def clampZero (y : ℝ) : ℝ :=
  if y = 0 then (10 : ℝ) ^ (-300 : ℤ) else y

/-- The reflection of a proposed `alpha_new` off the boundaries `0` and `10`:
when the proposal leaves `[0,10]`, multiple reflections into `[-10, 20]`
followed by one fold of `[-10,0)` by negation and of `(10,20]` by `20 - x`;
in all cases an exact `0` is then replaced by `1e-300`. -/
noncomputable def reflectAlpha (x : ℝ) : ℝ :=
  clampZero
    (if x < 0 ∨ 10 < x then foldHigh (foldNeg (wrapSub (wrapAdd x))) else x)

/-- `MCMCobject_admixture::alpha_update`, with the Gaussian proposal `raw`
(`rnorm1(alpha, alphaPropSD)`) and the uniform variate `u`
(`runif1(0.0,1.0)`) abstracted as parameters: reflect the proposal, compare
the Dirichlet-multinomial marginals, and install the proposal exactly when
`u < exp(logProb_new - logProb_old)`. -/
noncomputable def alpha_update (cfg : Cfg) (s : MCState) (raw u : ℝ) :
    MCState :=
  if u < Real.exp (logPalpha cfg s (reflectAlpha raw) -
      logPalpha cfg s s.alpha) then
    { s with alpha := reflectAlpha raw }
  else s

/-- The Stephens cost matrix accumulated in `chooseBestLabelPermutation`:
`costMat[k1][k2] += Qmatrix_gene_new[i][k1]*(logQmatrix_gene_new[i][k1]-logQmatrix_gene_running[i][k2])`
over all gene copies. -/
noncomputable def costMat (cfg : Cfg) (s : MCState) (k1 k2 : ℕ) : ℝ :=
  (geneList cfg).foldl
    (fun acc g =>
      acc +
        s.Qnew g.1 g.2.1 g.2.2 k1 *
          (s.logQnew g.1 g.2.1 g.2.2 k1 - s.logQrunning g.1 g.2.1 g.2.2 k2))
    0

/-- The `bestPermOrder` loop: starting from a zero-filled array, write
`order[bestPerm[k]] = k` for `k = 0 .. K-1`. -/
def permOrder (K : ℕ) (bp : ℕ → ℕ) : ℕ → ℕ :=
  (List.range K).foldl
    (fun f k => fun j => if j = bp k then k else f j) (fun _ => 0)

/-- `bp` restricts to a permutation of `{0, …, K-1}`. -/
def PermutesRange (K : ℕ) (bp : ℕ → ℕ) : Prop :=
  (∀ k, k < K → bp k < K) ∧
    ∀ k1, k1 < K → ∀ k2, k2 < K → bp k1 = bp k2 → k1 = k2

/-- Modelled from the spec: the contract of the Hungarian solver
(`Hungarian.h`, which is not under `src/`) — it returns a permutation of the
labels `0 .. K-1` minimizing the total assignment cost `Σ_k C[k][π(k)]`. -/
def hungarianSpec (K : ℕ) (C : ℕ → ℕ → ℝ) (bp : ℕ → ℕ) : Prop :=
  PermutesRange K bp ∧
    ∀ σ, PermutesRange K σ →
      ∑ k ∈ Finset.range K, C k (bp k) ≤ ∑ k ∈ Finset.range K, C k (σ k)

/-- `MCMCobject_admixture::chooseBestLabelPermutation`, parametrized by the
permutation `bp` returned by the external Hungarian solver: when `bp` is not
the identity on `0 .. K-1`, rewrite every group label through `bp`, permute
the rows of the allele counts, their totals, and the admixture counts by
`bestPermOrder`, and permute `logQmatrix_gene_new` likewise;
`Qmatrix_gene_new` and `logQmatrix_gene_running` are left untouched. -/
def chooseBestLabelPermutation (cfg : Cfg) (bp : ℕ → ℕ) (s : MCState) :
    MCState :=
  if ∀ k, k < cfg.K → bp k = k then s
  else
    { s with
      linearGroup := fun i l p =>
        if i < cfg.n ∧ l < cfg.loci ∧ p < cfg.ploidy i then
          bp (s.linearGroup i l p - 1) + 1
        else s.linearGroup i l p
      alleleCounts := fun k l j =>
        if k < cfg.K then s.alleleCounts (permOrder cfg.K bp k) l j
        else s.alleleCounts k l j
      alleleCountsTotals := fun k l =>
        if k < cfg.K then s.alleleCountsTotals (permOrder cfg.K bp k) l
        else s.alleleCountsTotals k l
      admixCounts := fun i k =>
        if i < cfg.n ∧ k < cfg.K then s.admixCounts i (permOrder cfg.K bp k)
        else s.admixCounts i k
      logQnew := fun i l p k =>
        if i < cfg.n ∧ l < cfg.loci ∧ p < cfg.ploidy i ∧ k < cfg.K then
          s.logQnew i l p (permOrder cfg.K bp k)
        else s.logQnew i l p k }

/-- One deme row of the `d_logLikeGroup` accumulation. -/
noncomputable def dllRow (cfg : Cfg) (aC : ℕ → ℕ → ℤ) (aT : ℕ → ℤ) : ℝ :=
  ∑ l ∈ Finset.range cfg.loci,
    ((∑ j ∈ Finset.range (cfg.J l),
        (lgamma (cfg.lambda + (aC l j : ℝ)) - lgamma cfg.lambda)) +
      (lgamma ((cfg.J l : ℝ) * cfg.lambda) -
        lgamma ((cfg.J l : ℝ) * cfg.lambda + (aT l : ℝ))))

/-- `MCMCobject_admixture::d_logLikeGroup`: the collapsed multinomial-Dirichlet
marginal likelihood of the data given the grouping, summed deme row by deme
row. -/
noncomputable def d_logLikeGroup (cfg : Cfg) (s : MCState) : ℝ :=
  ∑ k ∈ Finset.range cfg.K, dllRow cfg (s.alleleCounts k) (s.alleleCountsTotals k)

/-- Modelled from the spec: `logSum(a,b) = log(eᵃ+eᵇ)` (implemented in
`probability.cpp`, which is not under `src/`), extended to the value
`log 0 = -∞` that `reset` stores in `harmonic`; `none` stands for `-∞`, and
`logSum(-∞, b) = log(0 + eᵇ) = b`. -/
noncomputable def logSumNeg (a : Option ℝ) (b : ℝ) : Option ℝ :=
  match a with
  | none => some b
  | some x => some (Real.log (Real.exp x + Real.exp b))

/-- The harmonic accumulator over the recorded `logLikeGroup` values: starts
at `log 0` (`reset`) and performs `harmonic = logSum(harmonic, -logLikeGroup)`
once per post-burn-in iteration (`perform_MCMC`). -/
noncomputable def harmonicAccum (vs : List ℝ) : Option ℝ :=
  vs.foldl (fun h v => logSumNeg h (-v)) none

/-- The final harmonic-mean evidence,
`harmonic = log(double(samples)) - harmonic` at the end of `perform_MCMC`. -/
noncomputable def harmonicEvidence (vs : List ℝ) : Option ℝ :=
  (harmonicAccum vs).map fun h => Real.log (vs.length : ℝ) - h

/-- Number of non-missing gene copies of individual `i` in the data. -/
def nonMissingCount (cfg : Cfg) (i : ℕ) : ℕ :=
  (geneList cfg).countP fun g =>
    decide (g.1 = i ∧ cfg.dat g.1 g.2.1 g.2.2 ≠ 0)

/-- Number of non-missing observations of (0-based) allele `j` at locus `l`
in the data. -/
def alleleHist (cfg : Cfg) (l j : ℕ) : ℕ :=
  (geneList cfg).countP fun g =>
    decide (g.2.1 = l ∧ cfg.dat g.1 g.2.1 g.2.2 = j + 1)

/-- Invariant (I1): every row total of the allele counts is the sum of its
row. -/
def InvTotals (cfg : Cfg) (s : MCState) : Prop :=
  ∀ k, k < cfg.K → ∀ l, l < cfg.loci →
    s.alleleCountsTotals k l = ∑ j ∈ Finset.range (cfg.J l), s.alleleCounts k l j

/-- Invariant (I2): each individual's admixture counts sum to its total,
which equals its number of non-missing gene copies. -/
def InvAdmix (cfg : Cfg) (s : MCState) : Prop :=
  ∀ i, i < cfg.n →
    s.admixCountsTotals i = ∑ k ∈ Finset.range cfg.K, s.admixCounts i k ∧
      s.admixCountsTotals i = (nonMissingCount cfg i : ℤ)

/-- Invariant (I3): the allele counts column-sum to the data histogram. -/
def InvHist (cfg : Cfg) (s : MCState) : Prop :=
  ∀ l, l < cfg.loci → ∀ j, j < cfg.J l →
    ∑ k ∈ Finset.range cfg.K, s.alleleCounts k l j = (alleleHist cfg l j : ℤ)

/-- The full consistency invariant of the sufficient statistics, together
with the validity of the stored group labels (which the count indexing
`linearGroup[..]-1` silently relies on). -/
def Consistent (cfg : Cfg) (s : MCState) : Prop :=
  InvTotals cfg s ∧ InvAdmix cfg s ∧ InvHist cfg s ∧
    GroupValid cfg s.linearGroup

/-- Concrete one-individual, one-locus, biallelic-free configuration used to
instantiate the universally quantified theorems below. -/
noncomputable def cfg0 : Cfg :=
  { n := 1, loci := 1, ploidy := fun _ => 1, J := fun _ => 1,
    dat := fun _ _ _ => 1, K := 1, lambda := 1, beta := 1 }

/-- Concrete chain state matching `cfg0`. -/
noncomputable def s0 : MCState :=
  { alpha := 1, linearGroup := fun _ _ _ => 1,
    alleleCounts := fun _ _ _ => 0, alleleCountsTotals := fun _ _ => 0,
    admixCounts := fun _ _ => 0, admixCountsTotals := fun _ => 0,
    Qnew := fun _ _ _ _ => 0, logQnew := fun _ _ _ _ => 0,
    logQrunning := fun _ _ _ _ => 0 }

theorem mem_geneList {cfg : Cfg} {g : ℕ × ℕ × ℕ} :
    g ∈ geneList cfg ↔ InRange cfg g := by
  obtain ⟨i, l, p⟩ := g
  simp only [geneList, InRange, List.mem_flatMap, List.mem_map, List.mem_range,
    Prod.mk.injEq]
  constructor
  · rintro ⟨a, ha, b, hb, c, hc, rfl, rfl, rfl⟩
    exact ⟨ha, hb, hc⟩
  · rintro ⟨hi, hl, hp⟩
    exact ⟨i, hi, l, hl, p, hp, rfl, rfl, rfl⟩

theorem probVec_eq_wSpec (cfg : Cfg) (s : MCState) (i l p : ℕ) (b : ℝ) :
    probVecCode cfg s i l p b = wSpec cfg s i l p b := by
  funext k
  unfold probVecCode wSpec
  by_cases h : cfg.dat i l p = 0
  · simp [h]
  · rw [if_neg h, if_neg h]
    by_cases hb : b = 1
    · rw [if_neg (by simp [hb]), hb, Real.rpow_one, mul_comm]
    · rw [if_pos hb, mul_comm]

/-- C1: in every `group_update` sweep the gene copies are visited in
canonical order; each copy is removed from the count tensors (skipped when
missing), the categorical weights equal the spec formula
`w[k] = (admixCounts[i][k]+α)` for a missing observation and
`w[k] = (admixCounts[i][k]+α)·p_alleleᵝ` otherwise, the new label is drawn
from those weights, and the copy is re-added at its new deme: the source
sweep coincides with the sweep written from the specification's formulas, for
every draw oracle and every starting state. -/
theorem group_update_matches_spec (cfg : Cfg)
    (draw : ℕ × ℕ × ℕ → (ℕ → ℝ) → ℕ) (s : MCState) :
    group_update cfg draw s = group_update_spec cfg draw s := by
  unfold group_update group_update_spec
  have h : geneStepWith cfg probVecCode draw = geneStepWith cfg wSpec draw := by
    funext s' g
    unfold geneStepWith
    simp only [probVec_eq_wSpec]
  rw [h]

theorem wrapAdd_ge (x : ℝ) : -10 ≤ wrapAdd x := by
  unfold wrapAdd
  have h := Nat.le_ceil ((-10 - x) / 20)
  have h' : -10 - x ≤ 20 * (⌈(-10 - x) / 20⌉₊ : ℝ) := by
    rw [div_le_iff₀ (by norm_num : (0:ℝ) < 20)] at h
    linarith
  linarith

theorem wrapAdd_lt (x : ℝ) (hx : x < -10) : wrapAdd x < 10 := by
  unfold wrapAdd
  have hpos : 0 < (-10 - x) / 20 := div_pos (by linarith) (by norm_num)
  have hm1 : 1 ≤ ⌈(-10 - x) / 20⌉₊ := Nat.ceil_pos.mpr hpos
  have h2 : (⌈(-10 - x) / 20⌉₊ - 1) < ⌈(-10 - x) / 20⌉₊ := Nat.sub_lt hm1 one_pos
  have h3 : ((⌈(-10 - x) / 20⌉₊ - 1 : ℕ) : ℝ) < (-10 - x) / 20 :=
    Nat.lt_ceil.mp h2
  have h4 : ((⌈(-10 - x) / 20⌉₊ : ℝ) - 1) < (-10 - x) / 20 := by
    rw [Nat.cast_sub hm1] at h3
    push_cast at h3
    exact h3
  have h5 : 20 * ((⌈(-10 - x) / 20⌉₊ : ℝ) - 1) < -10 - x := by
    rw [lt_div_iff₀ (by norm_num : (0:ℝ) < 20)] at h4
    linarith
  linarith

theorem wrapAdd_id (x : ℝ) (hx : -10 ≤ x) : wrapAdd x = x := by
  unfold wrapAdd
  have h : ⌈(-10 - x) / 20⌉₊ = 0 := by
    rw [Nat.ceil_eq_zero]
    apply div_nonpos_of_nonpos_of_nonneg <;> linarith
  rw [h]
  push_cast
  ring

theorem wrapSub_le (x : ℝ) : wrapSub x ≤ 20 := by
  unfold wrapSub
  have h := Nat.le_ceil ((x - 20) / 20)
  have h' : x - 20 ≤ 20 * (⌈(x - 20) / 20⌉₊ : ℝ) := by
    rw [div_le_iff₀ (by norm_num : (0:ℝ) < 20)] at h
    linarith
  linarith

theorem wrapSub_gt (x : ℝ) (hx : 20 < x) : 0 < wrapSub x := by
  unfold wrapSub
  have hpos : 0 < (x - 20) / 20 := div_pos (by linarith) (by norm_num)
  have hm1 : 1 ≤ ⌈(x - 20) / 20⌉₊ := Nat.ceil_pos.mpr hpos
  have h2 : (⌈(x - 20) / 20⌉₊ - 1) < ⌈(x - 20) / 20⌉₊ := Nat.sub_lt hm1 one_pos
  have h3 : ((⌈(x - 20) / 20⌉₊ - 1 : ℕ) : ℝ) < (x - 20) / 20 := Nat.lt_ceil.mp h2
  have h4 : ((⌈(x - 20) / 20⌉₊ : ℝ) - 1) < (x - 20) / 20 := by
    rw [Nat.cast_sub hm1] at h3
    push_cast at h3
    exact h3
  have h5 : 20 * ((⌈(x - 20) / 20⌉₊ : ℝ) - 1) < x - 20 := by
    rw [lt_div_iff₀ (by norm_num : (0:ℝ) < 20)] at h4
    linarith
  linarith

theorem wrapSub_id (x : ℝ) (hx : x ≤ 20) : wrapSub x = x := by
  unfold wrapSub
  have h : ⌈(x - 20) / 20⌉₊ = 0 := by
    rw [Nat.ceil_eq_zero]
    apply div_nonpos_of_nonpos_of_nonneg <;> linarith
  rw [h]
  push_cast
  ring

theorem tiny_mem : 0 < (10 : ℝ) ^ (-300 : ℤ) ∧ (10 : ℝ) ^ (-300 : ℤ) ≤ 10 := by
  constructor
  · positivity
  · have h : ((10 : ℝ) ^ (-300 : ℤ)) ≤ (10 : ℝ) ^ (1 : ℤ) :=
      zpow_le_zpow_right₀ (by norm_num) (by norm_num)
    simpa using h

theorem clampZero_mem (y : ℝ) (h0 : 0 ≤ y) (h10 : y ≤ 10) :
    0 < clampZero y ∧ clampZero y ≤ 10 := by
  unfold clampZero
  split_ifs with h
  · exact tiny_mem
  · exact ⟨lt_of_le_of_ne h0 (Ne.symm h), h10⟩

theorem reflectAlpha_mem (x : ℝ) :
    0 < reflectAlpha x ∧ reflectAlpha x ≤ 10 := by
  unfold reflectAlpha
  by_cases hx : x < 0 ∨ 10 < x
  · rw [if_pos hx]
    have hz_ge : -10 ≤ wrapSub (wrapAdd x) := by
      rcases le_or_lt (wrapAdd x) 20 with h | h
      · rw [wrapSub_id _ h]
        exact wrapAdd_ge x
      · linarith [wrapSub_gt _ h]
    have hz_le : wrapSub (wrapAdd x) ≤ 20 := wrapSub_le _
    apply clampZero_mem
    · unfold foldHigh foldNeg
      split_ifs <;> linarith
    · unfold foldHigh foldNeg
      split_ifs <;> linarith
  · rw [if_neg hx]
    push_neg at hx
    exact clampZero_mem x hx.1 hx.2

/-- C5: for every real proposal value, the reflection procedure of
`alpha_update` yields a value in `(0, 10]`; consequently, when the incoming
`alpha` lies in `(0, 10]`, so does `alpha` after any `alpha_update`, whether
the proposal is accepted or rejected. -/
theorem alpha_reflect_range (cfg : Cfg) (s : MCState) (raw u x : ℝ)
    (h : 0 < s.alpha ∧ s.alpha ≤ 10) :
    (0 < reflectAlpha x ∧ reflectAlpha x ≤ 10) ∧
      (0 < (alpha_update cfg s raw u).alpha ∧
        (alpha_update cfg s raw u).alpha ≤ 10) := by
  refine ⟨reflectAlpha_mem x, ?_⟩
  unfold alpha_update
  split_ifs
  · exact reflectAlpha_mem raw
  · exact h

theorem alpha_reflect_range_witness :
    (0 < s0.alpha ∧ s0.alpha ≤ 10) ∧
      ((0 < reflectAlpha 25 ∧ reflectAlpha 25 ≤ 10) ∧
        (0 < (alpha_update cfg0 s0 25 0).alpha ∧
          (alpha_update cfg0 s0 25 0).alpha ≤ 10)) := by
  have h : 0 < s0.alpha ∧ s0.alpha ≤ 10 := by
    constructor <;> norm_num [s0]
  exact ⟨h, alpha_reflect_range cfg0 s0 25 0 25 h⟩

/-- C4: `alpha_update` accepts the reflected proposal exactly with the
Metropolis probability `min(1, exp(log p(α') − log p(α)))` computed from the
Dirichlet-multinomial marginal `logPalpha` alone (given `u` uniform on
`[0,1)`), and the thermodynamic parameter `beta` does not enter the
decision. -/
theorem alpha_update_acceptance (cfg : Cfg) (s : MCState) (raw u b' : ℝ)
    (hu : u < 1) :
    alpha_update cfg s raw u =
      (if u < min 1 (Real.exp (logPalpha cfg s (reflectAlpha raw) -
          logPalpha cfg s s.alpha)) then
        { s with alpha := reflectAlpha raw }
      else s) ∧
    alpha_update { cfg with beta := b' } s raw u = alpha_update cfg s raw u := by
  constructor
  · have hmin :
        u < Real.exp (logPalpha cfg s (reflectAlpha raw) -
            logPalpha cfg s s.alpha) ↔
        u < min 1 (Real.exp (logPalpha cfg s (reflectAlpha raw) -
            logPalpha cfg s s.alpha)) := by
      rcases le_total 1 (Real.exp (logPalpha cfg s (reflectAlpha raw) -
          logPalpha cfg s s.alpha)) with h | h
      · rw [min_eq_left h]
        exact ⟨fun _ => hu, fun _ => hu.trans_le h⟩
      · rw [min_eq_right h]
    unfold alpha_update
    by_cases h : u < Real.exp (logPalpha cfg s (reflectAlpha raw) -
        logPalpha cfg s s.alpha)
    · rw [if_pos h, if_pos (hmin.mp h)]
    · rw [if_neg h, if_neg fun hc => h (hmin.mpr hc)]
  · rfl

theorem alpha_update_acceptance_witness :
    ((1 : ℝ) / 2 < 1) ∧
      (alpha_update cfg0 s0 25 (1 / 2) =
        (if (1 : ℝ) / 2 < min 1 (Real.exp (logPalpha cfg0 s0 (reflectAlpha 25) -
            logPalpha cfg0 s0 s0.alpha)) then
          { s0 with alpha := reflectAlpha 25 }
        else s0)) := by
  refine ⟨by norm_num, ?_⟩
  exact (alpha_update_acceptance cfg0 s0 25 (1 / 2) 7 (by norm_num)).1

/-- C10: `alpha_update` mutates only the scalar `alpha` — the group
assignment, all four count tensors, and all Q matrices are unchanged by every
call — and when the Metropolis comparison rejects the proposal the entire
state is returned unchanged. -/
theorem alpha_update_frame (cfg : Cfg) (s : MCState) (raw u : ℝ) :
    ((alpha_update cfg s raw u).linearGroup = s.linearGroup ∧
      (alpha_update cfg s raw u).alleleCounts = s.alleleCounts ∧
      (alpha_update cfg s raw u).alleleCountsTotals = s.alleleCountsTotals ∧
      (alpha_update cfg s raw u).admixCounts = s.admixCounts ∧
      (alpha_update cfg s raw u).admixCountsTotals = s.admixCountsTotals ∧
      (alpha_update cfg s raw u).Qnew = s.Qnew ∧
      (alpha_update cfg s raw u).logQnew = s.logQnew ∧
      (alpha_update cfg s raw u).logQrunning = s.logQrunning) ∧
    (¬ u < Real.exp (logPalpha cfg s (reflectAlpha raw) -
        logPalpha cfg s s.alpha) →
      alpha_update cfg s raw u = s) := by
  constructor
  · unfold alpha_update
    split_ifs <;> exact ⟨rfl, rfl, rfl, rfl, rfl, rfl, rfl, rfl⟩
  · intro h
    unfold alpha_update
    rw [if_neg h]

theorem alpha_update_frame_witness :
    (¬ (1 : ℝ) < Real.exp (logPalpha cfg0 s0 (reflectAlpha 1) -
        logPalpha cfg0 s0 s0.alpha)) ∧
      alpha_update cfg0 s0 1 1 = s0 := by
  have hr : reflectAlpha (1 : ℝ) = 1 := by
    unfold reflectAlpha clampZero
    norm_num
  have hd : ¬ (1 : ℝ) < Real.exp (logPalpha cfg0 s0 (reflectAlpha 1) -
      logPalpha cfg0 s0 s0.alpha) := by
    rw [hr]
    have h1 : logPalpha cfg0 s0 1 - logPalpha cfg0 s0 s0.alpha = 0 := by
      have : s0.alpha = 1 := rfl
      rw [this]
      ring
    rw [h1, Real.exp_zero]
    exact lt_irrefl 1
  exact ⟨hd, (alpha_update_frame cfg0 s0 1 1).2 hd⟩

theorem paFactor_pos (cfg : Cfg) (s : MCState) (l a : ℕ)
    (hlam : 0 < cfg.lambda) (hJ : 1 ≤ cfg.J l) (k : ℕ)
    (hA : 0 ≤ s.alleleCounts k l a) (hT : 0 ≤ s.alleleCountsTotals k l) :
    0 < ((s.alleleCounts k l a : ℝ) + cfg.lambda) /
      ((s.alleleCountsTotals k l : ℝ) + (cfg.J l : ℝ) * cfg.lambda) := by
  apply div_pos
  · have : (0 : ℝ) ≤ (s.alleleCounts k l a : ℝ) := by exact_mod_cast hA
    linarith
  · have h1 : (0 : ℝ) ≤ (s.alleleCountsTotals k l : ℝ) := by exact_mod_cast hT
    have h2 : (1 : ℝ) ≤ (cfg.J l : ℝ) := by exact_mod_cast hJ
    nlinarith

theorem probVecCode_pos (cfg : Cfg) (s : MCState) (i l p : ℕ) (b : ℝ)
    (hal : 0 < s.alpha) (hlam : 0 < cfg.lambda) (hJ : 1 ≤ cfg.J l) (k : ℕ)
    (hA : ∀ k' j', 0 ≤ s.alleleCounts k' l j')
    (hT : ∀ k', 0 ≤ s.alleleCountsTotals k' l)
    (hM : ∀ k', 0 ≤ s.admixCounts i k') :
    0 < probVecCode cfg s i l p b k := by
  unfold probVecCode
  have hadm : 0 < (s.admixCounts i k : ℝ) + s.alpha := by
    have : (0 : ℝ) ≤ (s.admixCounts i k : ℝ) := by exact_mod_cast hM k
    linarith
  apply mul_pos _ hadm
  split_ifs with h hb
  · norm_num
  · exact Real.rpow_pos_of_pos
      (paFactor_pos cfg s l _ hlam hJ k (hA k _) (hT k)) b
  · exact paFactor_pos cfg s l _ hlam hJ k (hA k _) (hT k)

theorem qWeight_pos (cfg : Cfg) (s : MCState) (i l p : ℕ)
    (hal : 0 < s.alpha) (hlam : 0 < cfg.lambda) (hJ : 1 ≤ cfg.J l) (k : ℕ)
    (hA : ∀ k' j', 0 ≤ s.alleleCounts k' l j')
    (hT : ∀ k', 0 ≤ s.alleleCountsTotals k' l)
    (hM : ∀ k', 0 ≤ s.admixCounts i k') :
    0 < qWeight cfg s i l p k := by
  unfold qWeight
  have hadm : 0 < (s.admixCounts i k : ℝ) + s.alpha := by
    have : (0 : ℝ) ≤ (s.admixCounts i k : ℝ) := by exact_mod_cast hM k
    linarith
  apply mul_pos _ hadm
  split_ifs with h
  · norm_num
  · exact paFactor_pos cfg s l _ hlam hJ k (hA k _) (hT k)

theorem qSum_pos (cfg : Cfg) (s : MCState) (i l p : ℕ)
    (hK : 0 < cfg.K) (hal : 0 < s.alpha) (hlam : 0 < cfg.lambda)
    (hJ : 1 ≤ cfg.J l)
    (hA : ∀ k' j', 0 ≤ s.alleleCounts k' l j')
    (hT : ∀ k', 0 ≤ s.alleleCountsTotals k' l)
    (hM : ∀ k', 0 ≤ s.admixCounts i k') :
    0 < qSum cfg s i l p := by
  unfold qSum
  apply Finset.sum_pos
  · intro k _
    exact qWeight_pos cfg s i l p hal hlam hJ k hA hT hM
  · exact Finset.nonempty_range_iff.mpr hK.ne'

/-- C9: with `alpha > 0`, `lambda > 0`, at least one allele at the locus, and
non-negative count tensors, every categorical weight computed in
`group_update` is strictly positive, their sum is strictly positive, and the
same holds for the weights and normalizer of `produceQmatrix` — so neither
division ever divides by zero. -/
theorem group_update_weights_pos (cfg : Cfg) (s : MCState) (i l p : ℕ)
    (hK : 0 < cfg.K) (hal : 0 < s.alpha) (hlam : 0 < cfg.lambda)
    (hJ : 1 ≤ cfg.J l)
    (hA : ∀ k' j', 0 ≤ s.alleleCounts k' l j')
    (hT : ∀ k', 0 ≤ s.alleleCountsTotals k' l)
    (hM : ∀ k', 0 ≤ s.admixCounts i k') :
    (∀ k, 0 < probVecCode cfg s i l p cfg.beta k) ∧
      0 < ∑ k ∈ Finset.range cfg.K, probVecCode cfg s i l p cfg.beta k ∧
      (∀ k, 0 < qWeight cfg s i l p k) ∧ 0 < qSum cfg s i l p := by
  refine ⟨fun k => probVecCode_pos cfg s i l p cfg.beta hal hlam hJ k hA hT hM,
    ?_, fun k => qWeight_pos cfg s i l p hal hlam hJ k hA hT hM,
    qSum_pos cfg s i l p hK hal hlam hJ hA hT hM⟩
  apply Finset.sum_pos
  · intro k _
    exact probVecCode_pos cfg s i l p cfg.beta hal hlam hJ k hA hT hM
  · exact Finset.nonempty_range_iff.mpr hK.ne'

theorem group_update_weights_pos_witness :
    (0 < cfg0.K ∧ 0 < s0.alpha ∧ 0 < cfg0.lambda ∧ 1 ≤ cfg0.J 0) ∧
      ((∀ k, 0 < probVecCode cfg0 s0 0 0 0 cfg0.beta k) ∧
        0 < ∑ k ∈ Finset.range cfg0.K, probVecCode cfg0 s0 0 0 0 cfg0.beta k ∧
        (∀ k, 0 < qWeight cfg0 s0 0 0 0 k) ∧ 0 < qSum cfg0 s0 0 0 0) := by
  refine ⟨⟨by norm_num [cfg0], by norm_num [s0], by norm_num [cfg0],
    by norm_num [cfg0]⟩, ?_⟩
  exact group_update_weights_pos cfg0 s0 0 0 0 (by norm_num [cfg0])
    (by norm_num [s0]) (by norm_num [cfg0]) (by norm_num [cfg0])
    (fun k' j' => by norm_num [s0]) (fun k' => by norm_num [s0])
    (fun k' => by norm_num [s0])

/-- C6: for every in-range gene copy, the weight `produceQmatrix` computes is
the `beta = 1` conditional weight of the resample formula evaluated on the
intact counts (no decrement); after the call each row of `Qnew` sums to `1`
over the demes and `logQnew` is the entrywise logarithm of `Qnew`. -/
theorem produceQmatrix_rows (cfg : Cfg) (s : MCState)
    (hK : 0 < cfg.K) (hal : 0 < s.alpha) (hlam : 0 < cfg.lambda)
    (hJ : ∀ l', l' < cfg.loci → 1 ≤ cfg.J l')
    (hA : ∀ k' l' j', 0 ≤ s.alleleCounts k' l' j')
    (hT : ∀ k' l', 0 ≤ s.alleleCountsTotals k' l')
    (hM : ∀ i' k', 0 ≤ s.admixCounts i' k')
    (i l p : ℕ) (hi : i < cfg.n) (hl : l < cfg.loci) (hp : p < cfg.ploidy i) :
    (∀ k, qWeight cfg s i l p k = wSpec cfg s i l p 1 k) ∧
      (∑ k ∈ Finset.range cfg.K, (produceQmatrix cfg s).Qnew i l p k) = 1 ∧
      (∀ k, k < cfg.K →
        (produceQmatrix cfg s).logQnew i l p k =
          Real.log ((produceQmatrix cfg s).Qnew i l p k)) := by
  refine ⟨?_, ?_, ?_⟩
  · intro k
    unfold qWeight wSpec
    by_cases h : cfg.dat i l p = 0
    · simp [h]
    · rw [if_neg h, if_neg h, Real.rpow_one, mul_comm]
  · have hsum : 0 < qSum cfg s i l p :=
      qSum_pos cfg s i l p hK hal hlam (hJ l hl) (fun k' j' => hA k' l j')
        (fun k' => hT k' l) (fun k' => hM i k')
    have hcong : ∀ k ∈ Finset.range cfg.K,
        (produceQmatrix cfg s).Qnew i l p k =
          qWeight cfg s i l p k / qSum cfg s i l p := by
      intro k hk
      rw [Finset.mem_range] at hk
      simp only [produceQmatrix]
      rw [if_pos ⟨hi, hl, hp, hk⟩]
    rw [Finset.sum_congr rfl hcong, ← Finset.sum_div]
    exact div_self hsum.ne'
  · intro k hk
    simp only [produceQmatrix]
    rw [if_pos ⟨hi, hl, hp, hk⟩, if_pos ⟨hi, hl, hp, hk⟩]

theorem produceQmatrix_rows_witness :
    (0 < cfg0.K ∧ 0 < s0.alpha ∧ 0 < cfg0.lambda ∧ 0 < cfg0.n) ∧
      ((∀ k, qWeight cfg0 s0 0 0 0 k = wSpec cfg0 s0 0 0 0 1 k) ∧
        (∑ k ∈ Finset.range cfg0.K, (produceQmatrix cfg0 s0).Qnew 0 0 0 k) = 1 ∧
        (∀ k, k < cfg0.K →
          (produceQmatrix cfg0 s0).logQnew 0 0 0 k =
            Real.log ((produceQmatrix cfg0 s0).Qnew 0 0 0 k))) := by
  refine ⟨⟨by norm_num [cfg0], by norm_num [s0], by norm_num [cfg0],
    by norm_num [cfg0]⟩, ?_⟩
  exact produceQmatrix_rows cfg0 s0 (by norm_num [cfg0]) (by norm_num [s0])
    (by norm_num [cfg0]) (fun l' _ => by norm_num [cfg0])
    (fun k' l' j' => by norm_num [s0]) (fun k' l' => by norm_num [s0])
    (fun i' k' => by norm_num [s0]) 0 0 0 (by norm_num [cfg0])
    (by norm_num [cfg0]) (by norm_num [cfg0])

theorem logSumNeg_none (b : ℝ) : logSumNeg none b = some b := rfl

theorem logSumNeg_some (x b : ℝ) :
    logSumNeg (some x) b = some (Real.log (Real.exp x + Real.exp b)) := rfl

theorem harmonic_fold (t : List ℝ) : ∀ a : ℝ,
    t.foldl (fun h v => logSumNeg h (-v)) (some a) =
      some (Real.log (Real.exp a + ((t.map fun v => Real.exp (-v)).sum))) := by
  induction t with
  | nil =>
    intro a
    simp [Real.log_exp]
  | cons v t ih =>
    intro a
    simp only [List.foldl_cons, logSumNeg_some, List.map_cons, List.sum_cons]
    rw [ih]
    congr 2
    rw [Real.exp_log (by positivity)]
    ring

/-- C8: the harmonic accumulator starts at `log 0 = -∞` at `reset`, receives
`logSum(harmonic, -logLikeGroup)` once per recorded iteration, and is
finalized as `log(samples) - harmonic`; hence on any non-empty sequence of
recorded `logLikeGroup` values the returned evidence is
`log S - logSumExp(-v_s)`. -/
theorem harmonic_evidence_eq (vs : List ℝ) (h : vs ≠ []) :
    harmonicEvidence vs =
      some (Real.log (vs.length : ℝ) -
        Real.log ((vs.map fun v => Real.exp (-v)).sum)) := by
  obtain ⟨v, t, rfl⟩ := List.exists_cons_of_ne_nil h
  unfold harmonicEvidence harmonicAccum
  simp only [List.foldl_cons, logSumNeg_none]
  rw [harmonic_fold]
  simp only [List.map_cons, List.sum_cons]
  rfl

theorem harmonic_evidence_eq_witness :
    harmonicEvidence [(0 : ℝ)] =
      some (Real.log (([(0 : ℝ)].length : ℝ)) -
        Real.log (([(0 : ℝ)].map fun v => Real.exp (-v)).sum)) :=
  harmonic_evidence_eq [(0 : ℝ)] (by simp)

theorem permOrder_succ (K : ℕ) (bp : ℕ → ℕ) (j : ℕ) :
    permOrder (K + 1) bp j = if j = bp K then K else permOrder K bp j := by
  unfold permOrder
  rw [List.range_succ, List.foldl_append, List.foldl_cons, List.foldl_nil]

theorem permOrder_eval (K : ℕ) (bp : ℕ → ℕ) (j k : ℕ) (hk : k < K)
    (hbp : bp k = j) (huniq : ∀ k', k' < K → bp k' = j → k' = k) :
    permOrder K bp j = k := by
  induction K with
  | zero => omega
  | succ K ih =>
    rw [permOrder_succ]
    by_cases hj : j = bp K
    · rw [if_pos hj]
      exact huniq K (Nat.lt_succ_self K) hj.symm
    · rw [if_neg hj]
      have hkK : k < K := by
        rcases Nat.lt_succ_iff_lt_or_eq.mp hk with h | h
        · exact h
        · exact absurd (by rw [← h, hbp]) hj
      exact ih hkK fun k' hk' hbp' =>
        huniq k' (hk'.trans (Nat.lt_succ_self K)) hbp'

theorem permOrder_bp (K : ℕ) (bp : ℕ → ℕ) (h : PermutesRange K bp) (k : ℕ)
    (hk : k < K) : permOrder K bp (bp k) = k :=
  permOrder_eval K bp (bp k) k hk rfl fun k' hk' hbp' => h.2 k' hk' k hk hbp'

theorem bp_image_range (K : ℕ) (bp : ℕ → ℕ) (h : PermutesRange K bp) :
    (Finset.range K).image bp = Finset.range K := by
  apply Finset.eq_of_subset_of_card_le
  · intro x hx
    rw [Finset.mem_image] at hx
    obtain ⟨k, hk, rfl⟩ := hx
    rw [Finset.mem_range] at hk ⊢
    exact h.1 k hk
  · rw [Finset.card_image_of_injOn]
    intro a ha b hb hab
    rw [Finset.coe_range, Set.mem_Iio] at ha hb
    exact h.2 a ha b hb hab

theorem bp_surj (K : ℕ) (bp : ℕ → ℕ) (h : PermutesRange K bp) (j : ℕ)
    (hj : j < K) : ∃ k, k < K ∧ bp k = j := by
  have hmem : j ∈ (Finset.range K).image bp := by
    rw [bp_image_range K bp h, Finset.mem_range]
    exact hj
  rw [Finset.mem_image] at hmem
  obtain ⟨k, hk, hbk⟩ := hmem
  rw [Finset.mem_range] at hk
  exact ⟨k, hk, hbk⟩

theorem bp_permOrder (K : ℕ) (bp : ℕ → ℕ) (h : PermutesRange K bp) (j : ℕ)
    (hj : j < K) : permOrder K bp j < K ∧ bp (permOrder K bp j) = j := by
  obtain ⟨k, hk, hbk⟩ := bp_surj K bp h j hj
  rw [permOrder_eval K bp j k hk hbk
    fun k' hk' hbp' => h.2 k' hk' k hk (by rw [hbp', hbk])]
  exact ⟨hk, hbk⟩

theorem sum_permOrder {M : Type} [AddCommMonoid M] (K : ℕ) (bp : ℕ → ℕ)
    (h : PermutesRange K bp) (f : ℕ → M) :
    ∑ k ∈ Finset.range K, f (permOrder K bp k) = ∑ k ∈ Finset.range K, f k := by
  have hinj : ∀ j1 ∈ Finset.range K, ∀ j2 ∈ Finset.range K,
      permOrder K bp j1 = permOrder K bp j2 → j1 = j2 := by
    intro j1 h1 j2 h2 he
    rw [Finset.mem_range] at h1 h2
    have e1 := (bp_permOrder K bp h j1 h1).2
    have e2 := (bp_permOrder K bp h j2 h2).2
    rw [← e1, ← e2, he]
  have himg : (Finset.range K).image (permOrder K bp) = Finset.range K := by
    apply Finset.eq_of_subset_of_card_le
    · intro x hx
      rw [Finset.mem_image] at hx
      obtain ⟨j, hj, rfl⟩ := hx
      rw [Finset.mem_range] at hj ⊢
      exact (bp_permOrder K bp h j hj).1
    · rw [Finset.card_image_of_injOn]
      intro a ha b hb hab
      rw [Finset.coe_range, Set.mem_Iio] at ha hb
      exact hinj a (Finset.mem_range.mpr ha) b (Finset.mem_range.mpr hb) hab
  calc ∑ k ∈ Finset.range K, f (permOrder K bp k)
      = ∑ j ∈ (Finset.range K).image (permOrder K bp), f j :=
        (Finset.sum_image hinj).symm
    _ = ∑ j ∈ Finset.range K, f j := by rw [himg]

/-- C7: the collapsed marginal likelihood `d_logLikeGroup` is invariant under
any label relabeling applied by the alignment step: evaluating it after any
label permutation of the count tensors yields exactly the original value. -/
theorem d_logLikeGroup_perm_invariant (cfg : Cfg) (s : MCState) (bp : ℕ → ℕ)
    (h : PermutesRange cfg.K bp) :
    d_logLikeGroup cfg (chooseBestLabelPermutation cfg bp s) =
      d_logLikeGroup cfg s := by
  unfold chooseBestLabelPermutation
  split_ifs with hid
  · rfl
  · unfold d_logLikeGroup
    have hstep : ∀ k ∈ Finset.range cfg.K,
        dllRow cfg
            (fun l j => if k < cfg.K then
                s.alleleCounts (permOrder cfg.K bp k) l j
              else s.alleleCounts k l j)
            (fun l => if k < cfg.K then
                s.alleleCountsTotals (permOrder cfg.K bp k) l
              else s.alleleCountsTotals k l) =
          (fun m => dllRow cfg (s.alleleCounts m) (s.alleleCountsTotals m))
            (permOrder cfg.K bp k) := by
      intro k hk
      rw [Finset.mem_range] at hk
      simp only [if_pos hk]
    rw [Finset.sum_congr rfl hstep]
    exact sum_permOrder cfg.K bp h
      fun m => dllRow cfg (s.alleleCounts m) (s.alleleCountsTotals m)

theorem d_logLikeGroup_perm_invariant_witness :
    PermutesRange cfg0.K (fun k => k) ∧
      d_logLikeGroup cfg0
          (chooseBestLabelPermutation cfg0 (fun k => k) s0) =
        d_logLikeGroup cfg0 s0 := by
  have h : PermutesRange cfg0.K (fun k => k) :=
    ⟨fun k hk => hk, fun k1 _ k2 _ e => e⟩
  exact ⟨h, d_logLikeGroup_perm_invariant cfg0 s0 (fun k => k) h⟩

theorem foldl_add_map_sum (L : List (ℕ × ℕ × ℕ)) (f : ℕ × ℕ × ℕ → ℝ) :
    ∀ a : ℝ, L.foldl (fun acc g => acc + f g) a = a + (L.map f).sum := by
  induction L with
  | nil => intro a; simp
  | cons g t ih =>
    intro a
    simp only [List.foldl_cons, List.map_cons, List.sum_cons]
    rw [ih]
    ring

/-- C3: with `bp` the permutation delivered by the Hungarian solver on the
Stephens cost matrix (whose entries are the accumulated sums
`Σ_g Qnew[g][k1]·(logQnew[g][k1] − logQrunning[g][k2])`), the alignment step
computes `bestPermOrder` as the inverse permutation, leaves the state
untouched when `bp` is the identity, never permutes `logQrunning` (nor
`Qnew`), and otherwise rewrites every in-range group label through `bp` and
permutes the deme rows of the allele counts, their totals, the admixture
counts, and `logQnew` by `bestPermOrder`. -/
theorem label_alignment_shape (cfg : Cfg) (s : MCState) (bp : ℕ → ℕ)
    (h : hungarianSpec cfg.K (costMat cfg s) bp) :
    (∀ k1 k2, costMat cfg s k1 k2 =
        ((geneList cfg).map fun g =>
          s.Qnew g.1 g.2.1 g.2.2 k1 *
            (s.logQnew g.1 g.2.1 g.2.2 k1 -
              s.logQrunning g.1 g.2.1 g.2.2 k2)).sum) ∧
      (∀ k, k < cfg.K → permOrder cfg.K bp (bp k) = k) ∧
      ((∀ k, k < cfg.K → bp k = k) →
        chooseBestLabelPermutation cfg bp s = s) ∧
      (chooseBestLabelPermutation cfg bp s).logQrunning = s.logQrunning ∧
      (chooseBestLabelPermutation cfg bp s).Qnew = s.Qnew ∧
      (¬ (∀ k, k < cfg.K → bp k = k) →
        (∀ i l p, i < cfg.n → l < cfg.loci → p < cfg.ploidy i →
          (chooseBestLabelPermutation cfg bp s).linearGroup i l p =
            bp (s.linearGroup i l p - 1) + 1) ∧
        (∀ k l j, k < cfg.K →
          (chooseBestLabelPermutation cfg bp s).alleleCounts k l j =
            s.alleleCounts (permOrder cfg.K bp k) l j) ∧
        (∀ k l, k < cfg.K →
          (chooseBestLabelPermutation cfg bp s).alleleCountsTotals k l =
            s.alleleCountsTotals (permOrder cfg.K bp k) l) ∧
        (∀ i k, i < cfg.n → k < cfg.K →
          (chooseBestLabelPermutation cfg bp s).admixCounts i k =
            s.admixCounts i (permOrder cfg.K bp k)) ∧
        (∀ i l p k, i < cfg.n → l < cfg.loci → p < cfg.ploidy i → k < cfg.K →
          (chooseBestLabelPermutation cfg bp s).logQnew i l p k =
            s.logQnew i l p (permOrder cfg.K bp k))) := by
  refine ⟨?_, ?_, ?_, ?_, ?_, ?_⟩
  · intro k1 k2
    unfold costMat
    rw [foldl_add_map_sum]
    ring
  · intro k hk
    exact permOrder_bp cfg.K bp h.1 k hk
  · intro hid
    unfold chooseBestLabelPermutation
    rw [if_pos hid]
  · unfold chooseBestLabelPermutation
    split_ifs <;> rfl
  · unfold chooseBestLabelPermutation
    split_ifs <;> rfl
  · intro hid
    refine ⟨?_, ?_, ?_, ?_, ?_⟩
    · intro i l p hi hl hp
      simp only [chooseBestLabelPermutation, if_neg hid]
      rw [if_pos ⟨hi, hl, hp⟩]
    · intro k l j hk
      simp only [chooseBestLabelPermutation, if_neg hid]
      rw [if_pos hk]
    · intro k l hk
      simp only [chooseBestLabelPermutation, if_neg hid]
      rw [if_pos hk]
    · intro i k hi hk
      simp only [chooseBestLabelPermutation, if_neg hid]
      rw [if_pos ⟨hi, hk⟩]
    · intro i l p k hi hl hp hk
      simp only [chooseBestLabelPermutation, if_neg hid]
      rw [if_pos ⟨hi, hl, hp, hk⟩]

theorem label_alignment_shape_witness :
    hungarianSpec cfg0.K (costMat cfg0 s0) (fun k => k) ∧
      chooseBestLabelPermutation cfg0 (fun k => k) s0 = s0 := by
  have h : hungarianSpec cfg0.K (costMat cfg0 s0) (fun k => k) := by
    constructor
    · exact ⟨fun k hk => hk, fun k1 _ k2 _ e => e⟩
    · intro σ hσ
      have h1 : σ 0 < 1 := by
        have h2 := hσ.1 0 (by norm_num [cfg0])
        simpa [cfg0] using h2
      have h0 : σ 0 = 0 := by omega
      have hK : cfg0.K = 1 := rfl
      rw [hK, Finset.sum_range_one, Finset.sum_range_one, h0]
  refine ⟨h, (label_alignment_shape cfg0 s0 (fun k => k) h).2.2.1 ?_⟩
  intro k hk
  rfl

theorem sum_bump_j (f : ℕ → ℤ) (m c : ℕ) (d : ℤ) (A B : Prop) [Decidable A]
    [Decidable B] (hc : A → B → c < m) :
    ∑ j ∈ Finset.range m, (if A ∧ B ∧ j = c then f j + d else f j) =
      (∑ j ∈ Finset.range m, f j) + (if A ∧ B then d else 0) := by
  by_cases hAB : A ∧ B
  · obtain ⟨hA, hB⟩ := hAB
    have hterm : ∀ j ∈ Finset.range m,
        (if A ∧ B ∧ j = c then f j + d else f j) =
          f j + (if j = c then d else 0) := by
      intro j _
      by_cases hj : j = c
      · rw [if_pos ⟨hA, hB, hj⟩, if_pos hj]
      · rw [if_neg fun hh => hj hh.2.2, if_neg hj, add_zero]
    rw [Finset.sum_congr rfl hterm, Finset.sum_add_distrib, if_pos ⟨hA, hB⟩,
      Finset.sum_ite_eq' (Finset.range m) c fun _ => d,
      if_pos (Finset.mem_range.mpr (hc hA hB))]
  · have hterm : ∀ j ∈ Finset.range m,
        (if A ∧ B ∧ j = c then f j + d else f j) = f j := by
      intro j _
      exact if_neg fun hh => hAB ⟨hh.1, hh.2.1⟩
    rw [Finset.sum_congr rfl hterm, if_neg hAB, add_zero]

theorem sum_bump_k1 (f : ℕ → ℤ) (m c : ℕ) (d : ℤ) (A : Prop) [Decidable A]
    (hc : A → c < m) :
    ∑ k ∈ Finset.range m, (if A ∧ k = c then f k + d else f k) =
      (∑ k ∈ Finset.range m, f k) + (if A then d else 0) := by
  by_cases hA : A
  · have hterm : ∀ k ∈ Finset.range m,
        (if A ∧ k = c then f k + d else f k) =
          f k + (if k = c then d else 0) := by
      intro k _
      by_cases hk : k = c
      · rw [if_pos ⟨hA, hk⟩, if_pos hk]
      · rw [if_neg fun hh => hk hh.2, if_neg hk, add_zero]
    rw [Finset.sum_congr rfl hterm, Finset.sum_add_distrib, if_pos hA,
      Finset.sum_ite_eq' (Finset.range m) c fun _ => d,
      if_pos (Finset.mem_range.mpr (hc hA))]
  · have hterm : ∀ k ∈ Finset.range m,
        (if A ∧ k = c then f k + d else f k) = f k := by
      intro k _
      exact if_neg fun hh => hA hh.1
    rw [Finset.sum_congr rfl hterm, if_neg hA, add_zero]

theorem sum_bump_k2 (f : ℕ → ℤ) (m c : ℕ) (d : ℤ) (B : Prop) [Decidable B]
    (hc : B → c < m) :
    ∑ k ∈ Finset.range m, (if k = c ∧ B then f k + d else f k) =
      (∑ k ∈ Finset.range m, f k) + (if B then d else 0) := by
  by_cases hB : B
  · have hterm : ∀ k ∈ Finset.range m,
        (if k = c ∧ B then f k + d else f k) =
          f k + (if k = c then d else 0) := by
      intro k _
      by_cases hk : k = c
      · rw [if_pos ⟨hk, hB⟩, if_pos hk]
      · rw [if_neg fun hh => hk hh.1, if_neg hk, add_zero]
    rw [Finset.sum_congr rfl hterm, Finset.sum_add_distrib, if_pos hB,
      Finset.sum_ite_eq' (Finset.range m) c fun _ => d,
      if_pos (Finset.mem_range.mpr (hc hB))]
  · have hterm : ∀ k ∈ Finset.range m,
        (if k = c ∧ B then f k + d else f k) = f k := by
      intro k _
      exact if_neg fun hh => hB hh.2
    rw [Finset.sum_congr rfl hterm, if_neg hB, add_zero]

theorem condAdd_linearGroup (cfg : Cfg) (s : MCState) (g : ℕ × ℕ × ℕ) :
    (condAdd cfg s g).linearGroup = s.linearGroup := by
  unfold condAdd
  split_ifs <;> rfl

theorem condAdd_totals (cfg : Cfg) (s : MCState) (g : ℕ × ℕ × ℕ) (k l : ℕ) :
    (condAdd cfg s g).alleleCountsTotals k l =
      s.alleleCountsTotals k l +
        (if cfg.dat g.1 g.2.1 g.2.2 ≠ 0 ∧
            k = s.linearGroup g.1 g.2.1 g.2.2 - 1 ∧ l = g.2.1 then 1 else 0) := by
  by_cases hd : cfg.dat g.1 g.2.1 g.2.2 ≠ 0
  · simp only [condAdd]
    rw [if_pos hd]
    simp only [addCopy]
    by_cases hm : k = s.linearGroup g.1 g.2.1 g.2.2 - 1 ∧ l = g.2.1
    · rw [if_pos hm, if_pos ⟨hd, hm⟩]
    · rw [if_neg hm, if_neg fun hh => hm hh.2, add_zero]
  · simp only [condAdd]
    rw [if_neg hd, if_neg fun hh => hd hh.1, add_zero]

theorem condAdd_admixTot (cfg : Cfg) (s : MCState) (g : ℕ × ℕ × ℕ) (i : ℕ) :
    (condAdd cfg s g).admixCountsTotals i =
      s.admixCountsTotals i +
        (if cfg.dat g.1 g.2.1 g.2.2 ≠ 0 ∧ i = g.1 then 1 else 0) := by
  by_cases hd : cfg.dat g.1 g.2.1 g.2.2 ≠ 0
  · simp only [condAdd]
    rw [if_pos hd]
    simp only [addCopy]
    by_cases hm : i = g.1
    · rw [if_pos hm, if_pos ⟨hd, hm⟩]
    · rw [if_neg hm, if_neg fun hh => hm hh.2, add_zero]
  · simp only [condAdd]
    rw [if_neg hd, if_neg fun hh => hd hh.1, add_zero]

theorem condAdd_sumJ (cfg : Cfg) (s : MCState) (g : ℕ × ℕ × ℕ) (k l : ℕ)
    (hval : cfg.dat g.1 g.2.1 g.2.2 ≤ cfg.J g.2.1) :
    ∑ j ∈ Finset.range (cfg.J l), (condAdd cfg s g).alleleCounts k l j =
      (∑ j ∈ Finset.range (cfg.J l), s.alleleCounts k l j) +
        (if cfg.dat g.1 g.2.1 g.2.2 ≠ 0 ∧
            k = s.linearGroup g.1 g.2.1 g.2.2 - 1 ∧ l = g.2.1 then 1 else 0) := by
  by_cases hd : cfg.dat g.1 g.2.1 g.2.2 ≠ 0
  · simp only [condAdd]
    rw [if_pos hd]
    simp only [addCopy]
    rw [sum_bump_j (s.alleleCounts k l) (cfg.J l) (cfg.dat g.1 g.2.1 g.2.2 - 1)
      1 (k = s.linearGroup g.1 g.2.1 g.2.2 - 1) (l = g.2.1)
      (fun _ hB => by rw [hB]; omega)]
    congr 1
    by_cases hm : k = s.linearGroup g.1 g.2.1 g.2.2 - 1 ∧ l = g.2.1
    · rw [if_pos hm, if_pos ⟨hd, hm⟩]
    · rw [if_neg hm, if_neg fun hh => hm hh.2]
  · simp only [condAdd]
    rw [if_neg hd, if_neg fun hh => hd hh.1, add_zero]

theorem condAdd_sumK (cfg : Cfg) (s : MCState) (g : ℕ × ℕ × ℕ) (i : ℕ)
    (hgl : cfg.dat g.1 g.2.1 g.2.2 ≠ 0 →
      s.linearGroup g.1 g.2.1 g.2.2 - 1 < cfg.K) :
    ∑ k ∈ Finset.range cfg.K, (condAdd cfg s g).admixCounts i k =
      (∑ k ∈ Finset.range cfg.K, s.admixCounts i k) +
        (if cfg.dat g.1 g.2.1 g.2.2 ≠ 0 ∧ i = g.1 then 1 else 0) := by
  by_cases hd : cfg.dat g.1 g.2.1 g.2.2 ≠ 0
  · simp only [condAdd]
    rw [if_pos hd]
    simp only [addCopy]
    rw [sum_bump_k1 (s.admixCounts i) cfg.K
      (s.linearGroup g.1 g.2.1 g.2.2 - 1) 1 (i = g.1) (fun _ => hgl hd)]
    congr 1
    by_cases hm : i = g.1
    · rw [if_pos hm, if_pos ⟨hd, hm⟩]
    · rw [if_neg hm, if_neg fun hh => hm hh.2]
  · simp only [condAdd]
    rw [if_neg hd, if_neg fun hh => hd hh.1, add_zero]

theorem condAdd_sumHist (cfg : Cfg) (s : MCState) (g : ℕ × ℕ × ℕ) (l j : ℕ)
    (hgl : cfg.dat g.1 g.2.1 g.2.2 ≠ 0 →
      s.linearGroup g.1 g.2.1 g.2.2 - 1 < cfg.K) :
    ∑ k ∈ Finset.range cfg.K, (condAdd cfg s g).alleleCounts k l j =
      (∑ k ∈ Finset.range cfg.K, s.alleleCounts k l j) +
        (if cfg.dat g.1 g.2.1 g.2.2 ≠ 0 ∧ l = g.2.1 ∧
            j = cfg.dat g.1 g.2.1 g.2.2 - 1 then 1 else 0) := by
  by_cases hd : cfg.dat g.1 g.2.1 g.2.2 ≠ 0
  · simp only [condAdd]
    rw [if_pos hd]
    simp only [addCopy]
    rw [sum_bump_k2 (fun k => s.alleleCounts k l j) cfg.K
      (s.linearGroup g.1 g.2.1 g.2.2 - 1) 1
      (l = g.2.1 ∧ j = cfg.dat g.1 g.2.1 g.2.2 - 1) (fun _ => hgl hd)]
    congr 1
    by_cases hm : l = g.2.1 ∧ j = cfg.dat g.1 g.2.1 g.2.2 - 1
    · rw [if_pos hm, if_pos ⟨hd, hm⟩]
    · rw [if_neg hm, if_neg fun hh => hm hh.2]
  · simp only [condAdd]
    rw [if_neg hd, if_neg fun hh => hd hh.1, add_zero]

theorem populate_linearGroup (cfg : Cfg) :
    ∀ (L : List (ℕ × ℕ × ℕ)) (s : MCState),
      (L.foldl (condAdd cfg) s).linearGroup = s.linearGroup := by
  intro L
  induction L with
  | nil => intro s; rfl
  | cons g t ih =>
    intro s
    rw [List.foldl_cons, ih (condAdd cfg s g), condAdd_linearGroup]

theorem populate_totals (cfg : Cfg) (k l : ℕ) :
    ∀ (L : List (ℕ × ℕ × ℕ)) (s : MCState),
      (L.foldl (condAdd cfg) s).alleleCountsTotals k l =
        s.alleleCountsTotals k l +
          ((L.countP fun g => decide (cfg.dat g.1 g.2.1 g.2.2 ≠ 0 ∧
              k = s.linearGroup g.1 g.2.1 g.2.2 - 1 ∧ l = g.2.1)) : ℤ) := by
  intro L
  induction L with
  | nil => intro s; simp
  | cons g t ih =>
    intro s
    rw [List.foldl_cons, ih (condAdd cfg s g), condAdd_totals,
      List.countP_cons]
    simp only [condAdd_linearGroup, decide_eq_true_eq]
    split_ifs <;> push_cast <;> omega

theorem populate_sumJ (cfg : Cfg) (k l : ℕ) :
    ∀ (L : List (ℕ × ℕ × ℕ)) (s : MCState),
      (∀ g ∈ L, cfg.dat g.1 g.2.1 g.2.2 ≤ cfg.J g.2.1) →
      ∑ j ∈ Finset.range (cfg.J l),
          (L.foldl (condAdd cfg) s).alleleCounts k l j =
        (∑ j ∈ Finset.range (cfg.J l), s.alleleCounts k l j) +
          ((L.countP fun g => decide (cfg.dat g.1 g.2.1 g.2.2 ≠ 0 ∧
              k = s.linearGroup g.1 g.2.1 g.2.2 - 1 ∧ l = g.2.1)) : ℤ) := by
  intro L
  induction L with
  | nil => intro s _; simp
  | cons g t ih =>
    intro s hL
    rw [List.foldl_cons,
      ih (condAdd cfg s g) fun g' hg' => hL g' (List.mem_cons_of_mem g hg'),
      condAdd_sumJ cfg s g k l (hL g (List.mem_cons_self g t)),
      List.countP_cons]
    simp only [condAdd_linearGroup, decide_eq_true_eq]
    split_ifs <;> push_cast <;> omega

theorem populate_admixTot (cfg : Cfg) (i : ℕ) :
    ∀ (L : List (ℕ × ℕ × ℕ)) (s : MCState),
      (L.foldl (condAdd cfg) s).admixCountsTotals i =
        s.admixCountsTotals i +
          ((L.countP fun g => decide (cfg.dat g.1 g.2.1 g.2.2 ≠ 0 ∧
              i = g.1)) : ℤ) := by
  intro L
  induction L with
  | nil => intro s; simp
  | cons g t ih =>
    intro s
    rw [List.foldl_cons, ih (condAdd cfg s g), condAdd_admixTot,
      List.countP_cons]
    simp only [decide_eq_true_eq]
    split_ifs <;> push_cast <;> omega

theorem populate_sumK (cfg : Cfg) (i : ℕ) :
    ∀ (L : List (ℕ × ℕ × ℕ)) (s : MCState),
      (∀ g ∈ L, cfg.dat g.1 g.2.1 g.2.2 ≠ 0 →
        s.linearGroup g.1 g.2.1 g.2.2 - 1 < cfg.K) →
      ∑ k ∈ Finset.range cfg.K,
          (L.foldl (condAdd cfg) s).admixCounts i k =
        (∑ k ∈ Finset.range cfg.K, s.admixCounts i k) +
          ((L.countP fun g => decide (cfg.dat g.1 g.2.1 g.2.2 ≠ 0 ∧
              i = g.1)) : ℤ) := by
  intro L
  induction L with
  | nil => intro s _; simp
  | cons g t ih =>
    intro s hL
    rw [List.foldl_cons,
      ih (condAdd cfg s g) fun g' hg' hd' => by
        rw [condAdd_linearGroup]
        exact hL g' (List.mem_cons_of_mem g hg') hd',
      condAdd_sumK cfg s g i (hL g (List.mem_cons_self g t)),
      List.countP_cons]
    simp only [decide_eq_true_eq]
    split_ifs <;> push_cast <;> omega

theorem populate_sumHist (cfg : Cfg) (l j : ℕ) :
    ∀ (L : List (ℕ × ℕ × ℕ)) (s : MCState),
      (∀ g ∈ L, cfg.dat g.1 g.2.1 g.2.2 ≠ 0 →
        s.linearGroup g.1 g.2.1 g.2.2 - 1 < cfg.K) →
      ∑ k ∈ Finset.range cfg.K,
          (L.foldl (condAdd cfg) s).alleleCounts k l j =
        (∑ k ∈ Finset.range cfg.K, s.alleleCounts k l j) +
          ((L.countP fun g => decide (cfg.dat g.1 g.2.1 g.2.2 ≠ 0 ∧
              l = g.2.1 ∧ j = cfg.dat g.1 g.2.1 g.2.2 - 1)) : ℤ) := by
  intro L
  induction L with
  | nil => intro s _; simp
  | cons g t ih =>
    intro s hL
    rw [List.foldl_cons,
      ih (condAdd cfg s g) fun g' hg' hd' => by
        rw [condAdd_linearGroup]
        exact hL g' (List.mem_cons_of_mem g hg') hd',
      condAdd_sumHist cfg s g l j (hL g (List.mem_cons_self g t)),
      List.countP_cons]
    simp only [decide_eq_true_eq]
    split_ifs <;> push_cast <;> omega

theorem reset_consistent (cfg : Cfg) (hd : DataValid cfg) (rq : Bool)
    (s : MCState) (initGrp : ℕ → ℕ → ℕ → ℕ) (hg : GroupValid cfg initGrp) :
    Consistent cfg (reset cfg rq s initGrp) := by
  have hval : ∀ g ∈ geneList cfg, cfg.dat g.1 g.2.1 g.2.2 ≤ cfg.J g.2.1 := by
    intro g hmem
    obtain ⟨h1, h2, h3⟩ := mem_geneList.mp hmem
    exact hd g.1 h1 g.2.1 h2 g.2.2 h3
  unfold reset
  refine ⟨?_, ?_, ?_, ?_⟩
  · intro k hk l hl
    rw [populate_totals, populate_sumJ cfg k l (geneList cfg) _ hval]
    simp
  · intro i hi
    constructor
    · rw [populate_admixTot, populate_sumK cfg i (geneList cfg) _ (by
        intro g hmem hd'
        obtain ⟨h1, h2, h3⟩ := mem_geneList.mp hmem
        show initGrp g.1 g.2.1 g.2.2 - 1 < cfg.K
        have hb := hg g.1 h1 g.2.1 h2 g.2.2 h3
        omega)]
      simp
    · rw [populate_admixTot]
      have hcong : ((geneList cfg).countP fun g =>
          decide (cfg.dat g.1 g.2.1 g.2.2 ≠ 0 ∧ i = g.1)) =
          nonMissingCount cfg i := by
        apply List.countP_congr
        intro g _
        simp only [decide_eq_true_eq]
        omega
      rw [hcong]
      simp
  · intro l hl j hj
    rw [populate_sumHist cfg l j (geneList cfg) _ (by
      intro g hmem hd'
      obtain ⟨h1, h2, h3⟩ := mem_geneList.mp hmem
      show initGrp g.1 g.2.1 g.2.2 - 1 < cfg.K
      have hb := hg g.1 h1 g.2.1 h2 g.2.2 h3
      omega)]
    have hcong : ((geneList cfg).countP fun g =>
        decide (cfg.dat g.1 g.2.1 g.2.2 ≠ 0 ∧ l = g.2.1 ∧
          j = cfg.dat g.1 g.2.1 g.2.2 - 1)) = alleleHist cfg l j := by
      apply List.countP_congr
      intro g _
      simp only [decide_eq_true_eq]
      omega
    rw [hcong]
    simp
  · rw [populate_linearGroup]
    exact hg

theorem setGroup_self (s : MCState) (g : ℕ × ℕ × ℕ) (v : ℕ) :
    (setGroup s g v).linearGroup g.1 g.2.1 g.2.2 = v := by
  simp [setGroup]

theorem addCopy_sumJ (cfg : Cfg) (s : MCState) (g : ℕ × ℕ × ℕ) (k l : ℕ)
    (hdne : cfg.dat g.1 g.2.1 g.2.2 ≠ 0)
    (hval : cfg.dat g.1 g.2.1 g.2.2 ≤ cfg.J g.2.1) :
    ∑ j ∈ Finset.range (cfg.J l), (addCopy cfg s g).alleleCounts k l j =
      (∑ j ∈ Finset.range (cfg.J l), s.alleleCounts k l j) +
        (if k = s.linearGroup g.1 g.2.1 g.2.2 - 1 ∧ l = g.2.1 then
          1 else 0) := by
  simp only [addCopy]
  rw [sum_bump_j (s.alleleCounts k l) (cfg.J l) (cfg.dat g.1 g.2.1 g.2.2 - 1)
    1 _ _ (fun _ hB => by rw [hB]; omega)]

theorem removeCopy_sumJ (cfg : Cfg) (s : MCState) (g : ℕ × ℕ × ℕ) (k l : ℕ)
    (hdne : cfg.dat g.1 g.2.1 g.2.2 ≠ 0)
    (hval : cfg.dat g.1 g.2.1 g.2.2 ≤ cfg.J g.2.1) :
    ∑ j ∈ Finset.range (cfg.J l), (removeCopy cfg s g).alleleCounts k l j =
      (∑ j ∈ Finset.range (cfg.J l), s.alleleCounts k l j) +
        (if k = s.linearGroup g.1 g.2.1 g.2.2 - 1 ∧ l = g.2.1 then
          (-1 : ℤ) else 0) := by
  simp only [removeCopy, sub_eq_add_neg]
  rw [sum_bump_j (s.alleleCounts k l) (cfg.J l) (cfg.dat g.1 g.2.1 g.2.2 - 1)
    (-1) _ _ (fun _ hB => by rw [hB]; omega)]

theorem addCopy_sumK (cfg : Cfg) (s : MCState) (g : ℕ × ℕ × ℕ) (i : ℕ)
    (hgl : s.linearGroup g.1 g.2.1 g.2.2 - 1 < cfg.K) :
    ∑ k ∈ Finset.range cfg.K, (addCopy cfg s g).admixCounts i k =
      (∑ k ∈ Finset.range cfg.K, s.admixCounts i k) +
        (if i = g.1 then 1 else 0) := by
  simp only [addCopy]
  rw [sum_bump_k1 (s.admixCounts i) cfg.K
    (s.linearGroup g.1 g.2.1 g.2.2 - 1) 1 _ (fun _ => hgl)]

theorem removeCopy_sumK (cfg : Cfg) (s : MCState) (g : ℕ × ℕ × ℕ) (i : ℕ)
    (hgl : s.linearGroup g.1 g.2.1 g.2.2 - 1 < cfg.K) :
    ∑ k ∈ Finset.range cfg.K, (removeCopy cfg s g).admixCounts i k =
      (∑ k ∈ Finset.range cfg.K, s.admixCounts i k) +
        (if i = g.1 then (-1 : ℤ) else 0) := by
  simp only [removeCopy, sub_eq_add_neg]
  rw [sum_bump_k1 (s.admixCounts i) cfg.K
    (s.linearGroup g.1 g.2.1 g.2.2 - 1) (-1) _ (fun _ => hgl)]

theorem addCopy_sumHist (cfg : Cfg) (s : MCState) (g : ℕ × ℕ × ℕ) (l j : ℕ)
    (hgl : s.linearGroup g.1 g.2.1 g.2.2 - 1 < cfg.K) :
    ∑ k ∈ Finset.range cfg.K, (addCopy cfg s g).alleleCounts k l j =
      (∑ k ∈ Finset.range cfg.K, s.alleleCounts k l j) +
        (if l = g.2.1 ∧ j = cfg.dat g.1 g.2.1 g.2.2 - 1 then 1 else 0) := by
  simp only [addCopy]
  rw [sum_bump_k2 (fun k => s.alleleCounts k l j) cfg.K
    (s.linearGroup g.1 g.2.1 g.2.2 - 1) 1 _ (fun _ => hgl)]

theorem removeCopy_sumHist (cfg : Cfg) (s : MCState) (g : ℕ × ℕ × ℕ)
    (l j : ℕ) (hgl : s.linearGroup g.1 g.2.1 g.2.2 - 1 < cfg.K) :
    ∑ k ∈ Finset.range cfg.K, (removeCopy cfg s g).alleleCounts k l j =
      (∑ k ∈ Finset.range cfg.K, s.alleleCounts k l j) +
        (if l = g.2.1 ∧ j = cfg.dat g.1 g.2.1 g.2.2 - 1 then
          (-1 : ℤ) else 0) := by
  simp only [removeCopy, sub_eq_add_neg]
  rw [sum_bump_k2 (fun k => s.alleleCounts k l j) cfg.K
    (s.linearGroup g.1 g.2.1 g.2.2 - 1) (-1) _ (fun _ => hgl)]

theorem setGroup_alleleCounts (s : MCState) (g : ℕ × ℕ × ℕ) (v : ℕ) :
    (setGroup s g v).alleleCounts = s.alleleCounts := rfl

theorem setGroup_alleleCountsTotals (s : MCState) (g : ℕ × ℕ × ℕ) (v : ℕ) :
    (setGroup s g v).alleleCountsTotals = s.alleleCountsTotals := rfl

theorem setGroup_admixCounts (s : MCState) (g : ℕ × ℕ × ℕ) (v : ℕ) :
    (setGroup s g v).admixCounts = s.admixCounts := rfl

theorem setGroup_admixCountsTotals (s : MCState) (g : ℕ × ℕ × ℕ) (v : ℕ) :
    (setGroup s g v).admixCountsTotals = s.admixCountsTotals := rfl

theorem addCopy_linearGroup (cfg : Cfg) (s : MCState) (g : ℕ × ℕ × ℕ) :
    (addCopy cfg s g).linearGroup = s.linearGroup := rfl

theorem removeCopy_linearGroup (cfg : Cfg) (s : MCState) (g : ℕ × ℕ × ℕ) :
    (removeCopy cfg s g).linearGroup = s.linearGroup := rfl

theorem addCopy_totals (cfg : Cfg) (s : MCState) (g : ℕ × ℕ × ℕ) (k l : ℕ) :
    (addCopy cfg s g).alleleCountsTotals k l =
      s.alleleCountsTotals k l +
        (if k = s.linearGroup g.1 g.2.1 g.2.2 - 1 ∧ l = g.2.1 then
          1 else 0) := by
  simp only [addCopy]
  split_ifs <;> omega

theorem removeCopy_totals (cfg : Cfg) (s : MCState) (g : ℕ × ℕ × ℕ)
    (k l : ℕ) :
    (removeCopy cfg s g).alleleCountsTotals k l =
      s.alleleCountsTotals k l +
        (if k = s.linearGroup g.1 g.2.1 g.2.2 - 1 ∧ l = g.2.1 then
          (-1 : ℤ) else 0) := by
  simp only [removeCopy]
  split_ifs <;> omega

theorem addCopy_admixTot (cfg : Cfg) (s : MCState) (g : ℕ × ℕ × ℕ) (i : ℕ) :
    (addCopy cfg s g).admixCountsTotals i =
      s.admixCountsTotals i + (if i = g.1 then 1 else 0) := by
  simp only [addCopy]
  split_ifs <;> omega

theorem removeCopy_admixTot (cfg : Cfg) (s : MCState) (g : ℕ × ℕ × ℕ)
    (i : ℕ) :
    (removeCopy cfg s g).admixCountsTotals i =
      s.admixCountsTotals i + (if i = g.1 then (-1 : ℤ) else 0) := by
  simp only [removeCopy]
  split_ifs <;> omega

theorem geneStep_consistent (cfg : Cfg) (hd : DataValid cfg)
    (wf : Cfg → MCState → ℕ → ℕ → ℕ → ℝ → ℕ → ℝ)
    (draw : ℕ × ℕ × ℕ → (ℕ → ℝ) → ℕ)
    (hdraw : ∀ g w, 1 ≤ draw g w ∧ draw g w ≤ cfg.K)
    (s : MCState) (g : ℕ × ℕ × ℕ) (hgr : InRange cfg g)
    (hs : Consistent cfg s) :
    Consistent cfg (geneStepWith cfg wf draw s g) := by
  obtain ⟨hI1, hI2, hI3, hGV⟩ := hs
  have hgp := hGV g.1 hgr.1 g.2.1 hgr.2.1 g.2.2 hgr.2.2
  have hdat := hd g.1 hgr.1 g.2.1 hgr.2.1 g.2.2 hgr.2.2
  by_cases ha : cfg.dat g.1 g.2.1 g.2.2 = 0
  · have hne : ¬ cfg.dat g.1 g.2.1 g.2.2 ≠ 0 := fun hc => hc ha
    have hstep : geneStepWith cfg wf draw s g =
        setGroup s g (draw g (wf cfg s g.1 g.2.1 g.2.2 cfg.beta)) := by
      simp only [geneStepWith, if_neg hne]
    rw [hstep]
    refine ⟨hI1, hI2, hI3, ?_⟩
    intro i' hi' l' hl' p' hp'
    simp only [setGroup]
    split_ifs with hc
    · exact hdraw g _
    · exact hGV i' hi' l' hl' p' hp'
  · have hstep : geneStepWith cfg wf draw s g =
        addCopy cfg (setGroup (removeCopy cfg s g) g
          (draw g (wf cfg (removeCopy cfg s g) g.1 g.2.1 g.2.2 cfg.beta))) g := by
      simp only [geneStepWith, if_pos ha]
    rw [hstep]
    have hglS : s.linearGroup g.1 g.2.1 g.2.2 - 1 < cfg.K := by omega
    have hglS2 : (setGroup (removeCopy cfg s g) g
        (draw g (wf cfg (removeCopy cfg s g) g.1 g.2.1 g.2.2
          cfg.beta))).linearGroup g.1 g.2.1 g.2.2 - 1 < cfg.K := by
      rw [setGroup_self]
      have hb := hdraw g (wf cfg (removeCopy cfg s g) g.1 g.2.1 g.2.2 cfg.beta)
      omega
    refine ⟨?_, ?_, ?_, ?_⟩
    · intro k' hk' l' hl'
      rw [addCopy_sumJ _ _ _ _ _ ha hdat, setGroup_self, setGroup_alleleCounts,
        removeCopy_sumJ _ _ _ _ _ ha hdat, addCopy_totals, setGroup_self,
        setGroup_alleleCountsTotals, removeCopy_totals, hI1 k' hk' l' hl']
    · intro i' hi'
      constructor
      · rw [addCopy_admixTot, setGroup_admixCountsTotals, removeCopy_admixTot,
          addCopy_sumK _ _ _ _ hglS2, setGroup_admixCounts,
          removeCopy_sumK _ _ _ _ hglS, (hI2 i' hi').1]
      · rw [addCopy_admixTot, setGroup_admixCountsTotals, removeCopy_admixTot,
          (hI2 i' hi').2]
        split_ifs <;> ring
    · intro l' hl' j' hj'
      rw [addCopy_sumHist _ _ _ _ _ hglS2, setGroup_alleleCounts,
        removeCopy_sumHist _ _ _ _ _ hglS, hI3 l' hl' j' hj']
      split_ifs <;> ring
    · intro i' hi' l' hl' p' hp'
      rw [addCopy_linearGroup]
      simp only [setGroup]
      split_ifs with hc
      · exact hdraw g _
      · rw [removeCopy_linearGroup]
        exact hGV i' hi' l' hl' p' hp'

theorem foldl_geneStep_consistent (cfg : Cfg) (hd : DataValid cfg)
    (wf : Cfg → MCState → ℕ → ℕ → ℕ → ℝ → ℕ → ℝ)
    (draw : ℕ × ℕ × ℕ → (ℕ → ℝ) → ℕ)
    (hdraw : ∀ g w, 1 ≤ draw g w ∧ draw g w ≤ cfg.K) :
    ∀ (L : List (ℕ × ℕ × ℕ)), (∀ g ∈ L, InRange cfg g) →
      ∀ (s : MCState), Consistent cfg s →
        Consistent cfg (L.foldl (geneStepWith cfg wf draw) s) := by
  intro L
  induction L with
  | nil => intro _ s hs; exact hs
  | cons g t ih =>
    intro hL s hs
    rw [List.foldl_cons]
    exact ih (fun g' hg' => hL g' (List.mem_cons_of_mem g hg'))
      (geneStepWith cfg wf draw s g)
      (geneStep_consistent cfg hd wf draw hdraw s g
        (hL g (List.mem_cons_self g t)) hs)

theorem relabel_consistent (cfg : Cfg) (bp : ℕ → ℕ)
    (h : PermutesRange cfg.K bp) (s : MCState) (hs : Consistent cfg s) :
    Consistent cfg (chooseBestLabelPermutation cfg bp s) := by
  obtain ⟨hI1, hI2, hI3, hGV⟩ := hs
  unfold chooseBestLabelPermutation
  split_ifs with hid
  · exact ⟨hI1, hI2, hI3, hGV⟩
  · refine ⟨?_, ?_, ?_, ?_⟩
    · intro k hk l hl
      dsimp only
      rw [if_pos hk]
      have hσ := (bp_permOrder cfg.K bp h k hk).1
      rw [hI1 (permOrder cfg.K bp k) hσ l hl]
      apply Finset.sum_congr rfl
      intro j _
      rw [if_pos hk]
    · intro i hi
      have hsum : ∑ k ∈ Finset.range cfg.K,
          (if i < cfg.n ∧ k < cfg.K then
            s.admixCounts i (permOrder cfg.K bp k)
          else s.admixCounts i k) =
          ∑ k ∈ Finset.range cfg.K, s.admixCounts i k := by
        rw [Finset.sum_congr rfl fun k hk => by
          rw [if_pos ⟨hi, Finset.mem_range.mp hk⟩]]
        exact sum_permOrder cfg.K bp h (s.admixCounts i)
      dsimp only
      rw [hsum]
      exact hI2 i hi
    · intro l hl j hj
      dsimp only
      rw [Finset.sum_congr rfl fun k hk => by
        rw [if_pos (Finset.mem_range.mp hk)],
        sum_permOrder cfg.K bp h fun m => s.alleleCounts m l j]
      exact hI3 l hl j hj
    · intro i hi l hl p hp
      dsimp only
      rw [if_pos ⟨hi, hl, hp⟩]
      have hb := hGV i hi l hl p hp
      have hbp := h.1 (s.linearGroup i l p - 1) (by omega)
      omega

/-- C2: after `reset`, the sufficient statistics are mutually consistent
(each allele-count row total is its row sum, each individual's admixture
counts sum to its total, which is its number of non-missing gene copies, and
the allele counts column-sum to the data histogram), with all stored group
labels in `1..K`, and this consistency is preserved by every full
`group_update` sweep (for any weight former and any in-range draw oracle) and
by every label-alignment application. -/
theorem sufficient_stats_consistent (cfg : Cfg) (hd : DataValid cfg) :
    (∀ (s : MCState) (rq : Bool) (initGrp : ℕ → ℕ → ℕ → ℕ),
      GroupValid cfg initGrp → Consistent cfg (reset cfg rq s initGrp)) ∧
    (∀ (draw : ℕ × ℕ × ℕ → (ℕ → ℝ) → ℕ),
      (∀ g w, 1 ≤ draw g w ∧ draw g w ≤ cfg.K) →
      ∀ (s : MCState), Consistent cfg s →
        Consistent cfg (group_update cfg draw s)) ∧
    (∀ (bp : ℕ → ℕ), PermutesRange cfg.K bp →
      ∀ (s : MCState), Consistent cfg s →
        Consistent cfg (chooseBestLabelPermutation cfg bp s)) := by
  refine ⟨fun s rq initGrp hg => reset_consistent cfg hd rq s initGrp hg,
    fun draw hdraw s hs => ?_,
    fun bp hbp s hs => relabel_consistent cfg bp hbp s hs⟩
  unfold group_update
  exact foldl_geneStep_consistent cfg hd probVecCode draw hdraw
    (geneList cfg) (fun g hg => mem_geneList.mp hg) s hs

theorem sufficient_stats_consistent_witness :
    DataValid cfg0 ∧ GroupValid cfg0 (fun _ _ _ => 1) ∧
      Consistent cfg0 (reset cfg0 true s0 (fun _ _ _ => 1)) := by
  have hD : DataValid cfg0 := by
    intro i hi l hl p hp
    norm_num [cfg0]
  have hG : GroupValid cfg0 (fun _ _ _ => 1) := by
    intro i hi l hl p hp
    norm_num [cfg0]
  exact ⟨hD, hG, (sufficient_stats_consistent cfg0 hD).1 s0 true
    (fun _ _ _ => 1) hG⟩
